import Mathlib

/-!
Shallow embedding of `tsetmc-industry-companies.py` (a sequential ETL script
that fetches industry groups and their member companies from the TSETMC API
and writes CSV files), together with theorems settling the frozen claims.

Modelling conventions:
  * Python `str` values are embedded as `List Char` (Unicode scalar values,
    matching CPython's code-point strings).
  * The Unicode character database is external to the program (it lives in
    CPython's `unicodedata` / `re` / `str` machinery).  The three UCD-dependent
    ingredients — NFKC normalization, the `\w` word-character class, and the
    `str.isdigit` digit property — are therefore parameters of the embedding
    (structure `UC`); theorems assume only small documented UCD facts about
    them, and witnesses instantiate them concretely.  The Python whitespace
    set (`Py_UNICODE_ISSPACE`, shared by `str.strip`, `str.isspace` and
    regex `\s`) is small and fixed, so it is embedded concretely.
  * The network and the filesystem are external collaborators: HTTP attempts
    are an oracle `List Char → Except ε JVal` (one outcome per URL, covering
    the session's retries, status check and body parsing), and the filesystem
    is the list of existing file paths.
-/

namespace Tsetmc

/-- The set of UCD-dependent character functions used by the script.
`nfkc` embeds `unicodedata.normalize "NFKC"`, `isWord` the regex `\w` class
(`Py_UNICODE_ISALNUM` or underscore), `isdig` the `str.isdigit` character
property. -/
structure UC where
  nfkc : List Char → List Char
  isWord : Char → Bool
  isdig : Char → Bool

/-- Python's whitespace predicate `Py_UNICODE_ISSPACE`, used by `str.strip`,
`str.split` and the regex class `\s` (Unicode mode).  The set is fixed:
U+0009–U+000D, U+001C–U+001F, U+0020, U+0085, U+00A0, U+1680,
U+2000–U+200A, U+2028, U+2029, U+202F, U+205F, U+3000. -/
def isPySpace (c : Char) : Bool :=
  (9 ≤ c.toNat && c.toNat ≤ 13) || (28 ≤ c.toNat && c.toNat ≤ 32) ||
  c.toNat = 133 || c.toNat = 160 || c.toNat = 5760 ||
  (8192 ≤ c.toNat && c.toNat ≤ 8202) || c.toNat = 8232 || c.toNat = 8233 ||
  c.toNat = 8239 || c.toNat = 8287 || c.toNat = 12288

/-- The chained `str.replace` calls of `normalize_text`: U+200C (ZWNJ),
U+200F (RLM) and U+200E (LRM) each become a plain space. -/
def replaceMarks (cs : List Char) : List Char :=
  cs.map fun c =>
    if c = (Char.ofNat 8204) || c = (Char.ofNat 8207) || c = (Char.ofNat 8206) then ' ' else c

/-- `re.sub` of the pattern "one or more whitespace characters" by the single
replacement character `r`; the flag records whether the previous character was
whitespace (i.e. whether we are inside a run already replaced). -/
def collapseWith (r : Char) : Bool → List Char → List Char
  | _, [] => []
  | inRun, c :: rest =>
    if isPySpace c then
      if inRun then collapseWith r true rest else r :: collapseWith r true rest
    else c :: collapseWith r false rest

/-- Python `str.strip()`: drop leading and trailing `Py_UNICODE_ISSPACE`
characters. -/
def stripEnds (cs : List Char) : List Char :=
  ((cs.dropWhile isPySpace).reverse.dropWhile isPySpace).reverse

/-- The pure (UCD-independent) tail of `normalize_text`: the mark
replacements, whitespace-run collapsing to a single space, and `strip`. -/
def postNorm (cs : List Char) : List Char :=
  stripEnds (collapseWith ' ' false (replaceMarks cs))

/-- Invariant of collapsed text: every whitespace character is a plain
space. -/
def allSpacesPlain (cs : List Char) : Prop :=
  ∀ c ∈ cs, isPySpace c = true → c = ' '

/-- Invariant of collapsed text: no two adjacent whitespace characters. -/
def noTwoSpaces (cs : List Char) : Prop :=
  List.Chain' (fun a b => ¬(isPySpace a = true ∧ isPySpace b = true)) cs

/-- `normalize_text`: NFKC normalization, zero-width/direction marks to
spaces, whitespace runs to a single space, strip.  (The Python `s or ""`
guard only matters for a `None` argument, which no caller passes.) -/
def normalize_text (nfkc : List Char → List Char) (cs : List Char) : List Char :=
  postNorm (nfkc cs)

/-- The character class kept by `slugify`'s first `re.sub`: the complement of
`[^\w\s\-]` — word characters, whitespace, and the hyphen. -/
def slugKeep (u : UC) (c : Char) : Bool :=
  u.isWord c || isPySpace c || c = '-'

/-- `slugify`: normalize, delete every character outside `[\w\s\-]`, replace
whitespace runs by a single underscore, then either truncate to 120
characters or, if the processed text is empty (falsy), return "unknown". -/
def slugify (u : UC) (cs : List Char) : List Char :=
  let t1 := normalize_text u.nfkc cs
  let t2 := t1.filter (slugKeep u)
  let t3 := collapseWith '_' false t2
  if t3 = [] then "unknown".data else t3.take 120

/-! ## JSON values and Python primitives -/

/-- A parsed JSON value as produced by `json` / `requests`: `None`, `bool`,
`int`, `str`, `list`, `dict` (string keys, insertion-ordered).  JSON floats
do not occur in the responses the script consumes and are not modelled. -/
inductive JVal where
  | null : JVal
  | bool (b : Bool) : JVal
  | num (n : Int) : JVal
  | str (s : List Char) : JVal
  | arr (xs : List JVal) : JVal
  | obj (fs : List (String × JVal)) : JVal

/-- `v is None`. -/
def JVal.isNull : JVal → Bool
  | .null => true
  | _ => false

/-- Python truthiness of a JSON value: `None`, `False`, `0`, `""`, `[]` and
an empty dict are falsy; everything else is truthy. -/
def pyTruthy : JVal → Bool
  | .null => false
  | .bool b => b
  | .num n => n != 0
  | .str s => !s.isEmpty
  | .arr xs => !xs.isEmpty
  | .obj fs => !fs.isEmpty

/-- `dict.get k` (default `None`) on an insertion-ordered dict. -/
def dictGet (fs : List (String × JVal)) (k : String) : JVal :=
  (fs.lookup k).getD JVal.null

/-- The decimal digits of a natural number, most significant first
(CPython's `int.__str__` for non-negative values). -/
def natRepr (n : Nat) : List Char :=
  if h : n < 10 then [Char.ofNat (48 + n)]
  else natRepr (n / 10) ++ [Char.ofNat (48 + n % 10)]
termination_by n
decreasing_by exact Nat.div_lt_self (by omega) (by omega)

/-- `str` of a Python int. -/
def intRepr (n : Int) : List Char :=
  if n < 0 then '-' :: natRepr n.natAbs else natRepr n.toNat

/-- Python `repr` of a string: quoted with `'`, or with `"` when the text
contains a single quote but no double quote, escaping backslashes, the used
quote, and the common control characters.  (`\xNN` escapes of other
non-printables are not modelled; no claim depends on `str()` of a container
holding such text.) -/
def pyStrRepr (s : List Char) : List Char :=
  let q : Char := if s.contains '\'' && !s.contains '"' then '"' else '\''
  let body := s.flatMap fun c =>
    if c = '\\' then ['\\', '\\']
    else if c = q then ['\\', q]
    else if c = (Char.ofNat 10) then ['\\', 'n']
    else if c = (Char.ofNat 13) then ['\\', 'r']
    else if c = (Char.ofNat 9) then ['\\', 't']
    else [c]
  q :: body ++ [q]

/-- Interleave `", "` between the pieces (Python container `repr`). -/
def commaSep : List (List Char) → List Char
  | [] => []
  | [x] => x
  | x :: y :: rest => x ++ six ++ commaSep (y :: rest)
where six : List Char := [',', ' ']

mutual

/-- Python `repr` of a JSON value (= `str` for containers, where elements are
shown with `repr`). -/
def pyRepr : JVal → List Char
  | .null => "None".data
  | .bool true => "True".data
  | .bool false => "False".data
  | .num n => intRepr n
  | .str s => pyStrRepr s
  | .arr xs => '[' :: commaSep (pyReprList xs) ++ [']']
  | .obj fs => '{' :: commaSep (pyReprFields fs) ++ ['}']

def pyReprList : List JVal → List (List Char)
  | [] => []
  | v :: rest => pyRepr v :: pyReprList rest

def pyReprFields : List (String × JVal) → List (List Char)
  | [] => []
  | (k, v) :: rest => (pyStrRepr k.data ++ [':', ' '] ++ pyRepr v) :: pyReprFields rest

end

/-- Python `str` of a JSON value: the string itself for `str`, `repr`
otherwise. -/
def pyStr : JVal → List Char
  | .str s => s
  | v => pyRepr v

/-- `first_key(d, keys, default)`: the value of the first listed key that is
present with a non-`None` value; the default if there is none. -/
def first_key (fs : List (String × JVal)) (keys : List String) (dflt : JVal) : JVal :=
  match keys with
  | [] => dflt
  | k :: ks =>
    match fs.lookup k with
    | some v => if v.isNull then first_key fs ks dflt else v
    | none => first_key fs ks dflt

/-- `str.isdigit`: non-empty and every character has the UCD digit
property. -/
def pyIsDigit (u : UC) (s : List Char) : Bool :=
  !s.isEmpty && s.all u.isdig

/-- `str.zfill w`: left-pad with `'0'` to length `w`, keeping a leading
sign in front of the padding. -/
def zfill (w : Nat) (s : List Char) : List Char :=
  match s with
  | [] => List.replicate w '0'
  | c :: rest =>
    if c = '+' || c = '-' then c :: (List.replicate (w - s.length) '0' ++ rest)
    else List.replicate (w - s.length) '0' ++ s

/-! ## Fetching -/

/-- The error raised by `get_json` when every candidate URL failed
(a `RuntimeError` in the source, the spec's `FetchError`); it carries the
`last_err` variable, `None` when no URL was attempted. -/
structure FetchFail (ε : Type) where
  last : Option ε
deriving DecidableEq

/-- The URL loop of `get_json`: one oracle outcome per URL (the outcome of
the whole per-URL trip — session retries, status check, body parsing), with
the `last_err` accumulator. -/
def get_json_go (attempt : List Char → Except ε JVal) :
    List (List Char) → Option ε → Except (FetchFail ε) JVal
  | [], last => .error ⟨last⟩
  | url :: rest, _last =>
    match attempt url with
    | .ok v => .ok v
    | .error e => get_json_go attempt rest (some e)

/-- `get_json(session, urls)`: try the URLs in order, return the first
successfully fetched-and-parsed JSON body, else raise carrying the last
error. -/
def get_json (attempt : List Char → Except ε JVal) (urls : List (List Char)) :
    Except (FetchFail ε) JVal :=
  get_json_go attempt urls none

def STATIC_DATA_URLS : List (List Char) :=
  ["https://cdn.tsetmc.com/api/StaticData/GetStaticData".data,
   "http://cdn.tsetmc.com/api/StaticData/GetStaticData".data]

/-- `RELATED_COMPANY_URLS` after `u.format(code=industry_code)`: the format
placeholder sits at the tail of both templates, so formatting appends the
code. -/
def relatedUrls (code : List Char) : List (List Char) :=
  ["https://cdn.tsetmc.com/api/ClosingPrice/GetRelatedCompany/".data ++ code,
   "http://cdn.tsetmc.com/api/ClosingPrice/GetRelatedCompany/".data ++ code]

/-! ## Extraction -/

structure Industry where
  code : List Char
  name : List Char
deriving DecidableEq

structure Company where
  id : List Char
  symbol : List Char
  name : List Char
deriving DecidableEq

/-- The deduplication loop shared by `load_industries` and
`load_companies_for_industry`: a `seen` set of keys, keeping each list
element whose key has not been seen (first occurrence wins, order kept). -/
def dedupBy (key : α → List Char) : List (List Char) → List α → List α
  | _, [] => []
  | seen, x :: rest =>
    if key x ∈ seen then dedupBy key seen rest
    else x :: dedupBy key (key x :: seen) rest

/-- `typ != "IndustrialGroup"` comparison (a non-string JSON value is never
equal to a Python string). -/
def isIndustrialGroup : JVal → Bool
  | .str s => s = "IndustrialGroup".data
  | _ => false

def industryNameKeys : List String :=
  ["name", "Name", "title", "Title", "lVal", "lval", "lTitle", "value", "Value"]

/-- The body of the `load_industries` item loop: skip non-dict items and
items whose type is not `"IndustrialGroup"` or whose code is absent;
strip the code, zero-fill all-digit codes to width 2, read the name under
its alias keys with the synthesized fallback, normalize it. -/
def parseIndustry (u : UC) (it : JVal) : Option Industry :=
  match it with
  | .obj fs =>
    if isIndustrialGroup (first_key fs ["type", "Type"] (.str [])) then
      let code := first_key fs ["code", "Code"] .null
      if code.isNull then none
      else
        let c0 := stripEnds (pyStr code)
        let code_str := if pyIsDigit u c0 then zfill 2 c0 else c0
        let name := first_key fs industryNameKeys (.str ("IndustrialGroup_".data ++ code_str))
        some ⟨code_str, normalize_text u.nfkc (pyStr name)⟩
    else none
  | _ => none

/-- The two loops of `load_industries` after the collection is located:
parse each item, then deduplicate by code. -/
def extract_industries_items (u : UC) (items : List JVal) : List Industry :=
  dedupBy Industry.code [] (items.filterMap (parseIndustry u))

/-- `row.get("instrument") or row.get("Instrument") or row`: the first
truthy value under the two case-variant keys, else the row itself. -/
def pyInstr (fs : List (String × JVal)) : JVal :=
  if pyTruthy (dictGet fs "instrument") then dictGet fs "instrument"
  else if pyTruthy (dictGet fs "Instrument") then dictGet fs "Instrument"
  else .obj fs

def companyIdKeys : List String := ["insCode", "InsCode", "i", "Id", "id"]

def companySymbolKeys : List String := ["lVal18AFC", "lVal18", "symbol", "Symbol"]

def companyNameKeys : List String := ["lVal30", "lSoc30", "lVal30AFC", "name", "Name"]

/-- The body of the `load_companies_for_industry` row loop: skip non-dict
rows, locate the instrument mapping (skipping the row when the located value
is not a dict), read id / symbol / optional name under their alias keys,
skip when id or symbol is absent, strip the id and normalize the texts. -/
def parseCompany (u : UC) (row : JVal) : Option Company :=
  match row with
  | .obj fs =>
    match pyInstr fs with
    | .obj ifs =>
      let ins_code := first_key ifs companyIdKeys .null
      let symbol := first_key ifs companySymbolKeys .null
      let name := first_key ifs companyNameKeys .null
      if ins_code.isNull || symbol.isNull then none
      else
        some ⟨stripEnds (pyStr ins_code), normalize_text u.nfkc (pyStr symbol),
              if name.isNull then [] else normalize_text u.nfkc (pyStr name)⟩
    | _ => none
  | _ => none

/-- The two loops of `load_companies_for_industry` after the collection is
located: parse each row, then deduplicate by internal id. -/
def extract_companies_rows (u : UC) (rows : List JVal) : List Company :=
  dedupBy Company.id [] (rows.filterMap (parseCompany u))

/-! ## Locating the collections and the top-level loaders -/

/-- `data.get(k1) or data.get(k2) or []`. -/
def pyGetOr (fs : List (String × JVal)) (k1 k2 : String) : JVal :=
  if pyTruthy (dictGet fs k1) then dictGet fs k1
  else if pyTruthy (dictGet fs k2) then dictGet fs k2
  else .arr []

/-- A Python exception escaping a loader: a failed fetch, an `AttributeError`
(`.get` on a non-dict body), or a `TypeError` (`for` over a non-iterable
collection).  Iterating a string yields its characters as 1-character
strings and iterating a dict yields its keys; both kinds of element fail the
loaders' `isinstance(·, dict)` checks. -/
inductive PyExc (ε : Type) where
  | fetch (last : Option ε)
  | attrError
  | typeError
deriving DecidableEq

/-- `for it in items` as a list of iterated elements. -/
def iterElems : JVal → Except Unit (List JVal)
  | .arr xs => .ok xs
  | .str s => .ok (s.map fun c => .str [c])
  | .obj fs => .ok (fs.map fun p => .str p.1.data)
  | _ => .error ()

/-- `load_industries`: fetch the static data, locate the collection, extract
and deduplicate the industries. -/
def load_industries (u : UC) (attempt : List Char → Except ε JVal) :
    Except (PyExc ε) (List Industry) :=
  match get_json attempt STATIC_DATA_URLS with
  | .error fe => .error (.fetch fe.last)
  | .ok (.obj fs) =>
    match iterElems (pyGetOr fs "staticData" "StaticData") with
    | .error _ => .error .typeError
    | .ok items => .ok (extract_industries_items u items)
  | .ok _ => .error .attrError

/-- `load_companies_for_industry`: fetch the related companies of one
industry code, locate the collection, extract and deduplicate. -/
def load_companies_for_industry (u : UC) (attempt : List Char → Except ε JVal)
    (code : List Char) : Except (PyExc ε) (List Company) :=
  match get_json attempt (relatedUrls code) with
  | .error fe => .error (.fetch fe.last)
  | .ok (.obj fs) =>
    match iterElems (pyGetOr fs "relatedCompany" "RelatedCompany") with
    | .error _ => .error .typeError
    | .ok rows => .ok (extract_companies_rows u rows)
  | .ok _ => .error .attrError

/-! ## Filesystem layer

The filesystem is modelled as the list of existing file paths; file contents
are not modelled (no claim depends on them), directories are implicit and
`os.makedirs(..., exist_ok=True)` is a no-op on this state. -/

/-- `str.rfind`: the index of the last occurrence of `c`, `-1` if absent. -/
def rfind (c : Char) : List Char → Int
  | [] => -1
  | a :: rest =>
    let r := rfind c rest
    if r ≥ 0 then r + 1 else if a = c then 0 else -1

/-- `os.path.splitext` (posix): split at the last dot when it comes after the
last separator and the base name up to it is not made of dots only. -/
def splitext (p : List Char) : List Char × List Char :=
  let sepIdx := rfind '/' p
  let dotIdx := rfind '.' p
  if sepIdx < dotIdx then
    let d := dotIdx.toNat
    let f := (sepIdx + 1).toNat
    if ((p.drop f).take (d - f)).all (fun c => c = '.') then (p, [])
    else (p.take d, p.drop d)
  else (p, [])

/-- `os.path.join` (posix, two components). -/
def pyJoin (a b : List Char) : List Char :=
  if b.head? = some '/' then b
  else if a = [] || a.getLast? = some '/' then a ++ b
  else a ++ '/' :: b

/-- The candidate file name tried by `ensure_unique_path` at counter `i`. -/
def uniqueCand (base ext : List Char) (i : Nat) : List Char :=
  base ++ '_' :: (natRepr i ++ ext)

/-- The longest path length present on the (finite) filesystem. -/
def maxLen (fs : List (List Char)) : Nat :=
  fs.foldr (fun p m => max p.length m) 0

theorem length_le_maxLen {fs : List (List Char)} {p : List Char} (h : p ∈ fs) :
    p.length ≤ maxLen fs := by
  induction fs with
  | nil => cases h
  | cons q rest ih =>
    have hq : maxLen (q :: rest) = max q.length (maxLen rest) := rfl
    rw [hq]
    rcases List.mem_cons.mp h with h' | h'
    · subst h'; exact Nat.le_max_left _ _
    · exact le_trans (ih h') (Nat.le_max_right _ _)

theorem natRepr_pow_length (k : Nat) : (natRepr (10 ^ k)).length = k + 1 := by
  induction k with
  | zero => rw [natRepr]; norm_num
  | succ k ih =>
    rw [natRepr]
    have h10 : ¬(10 ^ (k + 1) < 10) := by
      have : (10 : Nat) ^ 1 ≤ 10 ^ (k + 1) := Nat.pow_le_pow_right (by omega) (by omega)
      omega
    have hdiv : 10 ^ (k + 1) / 10 = 10 ^ k := by
      rw [pow_succ]; exact Nat.mul_div_cancel _ (by omega)
    simp only [h10, if_neg, dite_false]
    rw [hdiv]
    simp [ih]

/-- The counter loop of `ensure_unique_path` always terminates: some
candidate name is longer than everything on the filesystem. -/
theorem exists_unused (fs : List (List Char)) (base ext : List Char) :
    ∃ j : Nat, uniqueCand base ext (2 + j) ∉ fs := by
  refine ⟨10 ^ (maxLen fs + 1) - 2, fun hmem => ?_⟩
  have h2 : (10 : Nat) ^ (maxLen fs + 1) ≥ 10 := by
    have : (10 : Nat) ^ 1 ≤ 10 ^ (maxLen fs + 1) := Nat.pow_le_pow_right (by omega) (by omega)
    omega
  have heq : 2 + (10 ^ (maxLen fs + 1) - 2) = 10 ^ (maxLen fs + 1) := by omega
  rw [heq] at hmem
  have hlen := length_le_maxLen hmem
  have : (uniqueCand base ext (10 ^ (maxLen fs + 1))).length ≥ maxLen fs + 2 := by
    simp [uniqueCand, natRepr_pow_length]
    omega
  omega

/-- `ensure_unique_path`: the path itself when unused, else the first free
`base_i + ext` for `i = 2, 3, …`. -/
def ensure_unique_path (fs : List (List Char)) (path : List Char) : List Char :=
  if path ∈ fs then
    let be := splitext path
    uniqueCand be.1 be.2 (2 + Nat.find (exists_unused fs be.1 be.2))
  else path

/-- `write_industry_csv` on the path-set filesystem: slugify the industry
name, join with the output directory, disambiguate, create the file (header
and rows are written inside one open/close span; contents are not part of the
state).  Returns the written path and the new filesystem. -/
def write_industry_csv (u : UC) (fs : List (List Char)) (industry_name : List Char)
    (out_dir : List Char) (_companies : List Company) : List Char × List (List Char) :=
  let path := pyJoin out_dir (slugify u industry_name ++ ".csv".data)
  let p := ensure_unique_path fs path
  (p, p :: fs)

/-! ## The orchestrator (`main`) -/

/-- A row of the combined CSV. -/
structure CRow where
  industry : List Char
  id : List Char
  symbol : List Char
  name : List Char
deriving DecidableEq

def COMBINED_PATH : List Char := "all_companies_with_industry.csv".data

/-- The per-industry loop of `main`.  An uncaught exception terminates the
process; the `.error` payload pairs the exception with the filesystem state
at that moment (in-memory `all_rows` die with the process). -/
def mainLoop (u : UC) (attempt : List Char → Except ε JVal) :
    List Industry → List (List Char) → List CRow →
    Except (PyExc ε × List (List Char)) (List (List Char) × List CRow)
  | [], fs, rows => .ok (fs, rows)
  | ind :: rest, fs, rows =>
    match load_companies_for_industry u attempt ind.code with
    | .error e => .error (e, fs)
    | .ok [] => mainLoop u attempt rest fs rows
    | .ok cs =>
      let w := write_industry_csv u fs ind.name "industries".data cs
      mainLoop u attempt rest w.2
        (rows ++ cs.map fun c => ⟨ind.name, c.id, c.symbol, c.name⟩)

/-- `main`: load the industries (empty list: report and stop successfully),
loop over them, and finally (over)write the combined CSV when any rows were
collected. -/
def mainModel (u : UC) (attempt : List Char → Except ε JVal) (fs₀ : List (List Char)) :
    Except (PyExc ε × List (List Char)) (List (List Char) × List CRow) :=
  match load_industries u attempt with
  | .error e => .error (e, fs₀)
  | .ok inds =>
    if inds.isEmpty then .ok (fs₀, [])
    else
      match mainLoop u attempt inds fs₀ [] with
      | .error es => .error es
      | .ok (fs, rows) =>
        if rows.isEmpty then .ok (fs, rows)
        else .ok (if COMBINED_PATH ∈ fs then fs else COMBINED_PATH :: fs, rows)

/-- A concrete instantiation of the UCD parameters used by witnesses: the
identity for NFKC (correct on ASCII), ASCII alphanumerics-plus-underscore
for `\w`, ASCII decimal digits for the digit property. -/
def ucAscii : UC :=
  ⟨id, fun c => c.isAlphanum || c = '_', Char.isDigit⟩

/-- A related-company row whose `"instrument"` key holds an *empty* (hence
falsy) mapping, while the id and symbol sit on the row itself. -/
def emptyInstrRow : List (String × JVal) :=
  [("instrument", JVal.obj []), ("insCode", JVal.str "7".data),
   ("lVal18AFC", JVal.str "S".data)]

/-! ## Helper lemmas about `get_json` -/

theorem get_json_go_ok {ε : Type} (attempt : List Char → Except ε JVal) :
    ∀ (us₁ : List (List Char)) (url : List Char) (us₂ : List (List Char)) (v : JVal)
      (last : Option ε),
      (∀ w ∈ us₁, ∃ e, attempt w = .error e) → attempt url = .ok v →
      get_json_go attempt (us₁ ++ url :: us₂) last = .ok v := by
  intro us₁
  induction us₁ with
  | nil =>
    intro url us₂ v last _ hok
    simp [get_json_go, hok]
  | cons w ws ih =>
    intro url us₂ v last hfail hok
    obtain ⟨e, he⟩ := hfail w (List.mem_cons_self _ _)
    simp only [List.cons_append, get_json_go, he]
    exact ih url us₂ v (some e) (fun x hx => hfail x (List.mem_cons_of_mem _ hx)) hok

theorem get_json_go_error_last {ε : Type} (attempt : List Char → Except ε JVal) :
    ∀ (us₁ : List (List Char)) (url : List Char) (e : ε) (last : Option ε),
      (∀ w ∈ us₁, ∃ e', attempt w = .error e') → attempt url = .error e →
      get_json_go attempt (us₁ ++ [url]) last = .error ⟨some e⟩ := by
  intro us₁
  induction us₁ with
  | nil =>
    intro url e last _ herr
    simp [get_json_go, herr]
  | cons w ws ih =>
    intro url e last hfail herr
    obtain ⟨e', he'⟩ := hfail w (List.mem_cons_self _ _)
    simp only [List.cons_append, get_json_go, he']
    exact ih url e (some e') (fun x hx => hfail x (List.mem_cons_of_mem _ hx)) herr

theorem get_json_go_all_fail_of_error {ε : Type} (attempt : List Char → Except ε JVal) :
    ∀ (urls : List (List Char)) (last : Option ε) (fe : FetchFail ε),
      get_json_go attempt urls last = .error fe →
      ∀ w ∈ urls, ∃ e, attempt w = .error e := by
  intro urls
  induction urls with
  | nil => intro _ _ _ w hw; cases hw
  | cons url rest ih =>
    intro last fe hrun w hw
    rcases hw' : attempt url with e | v
    · rcases List.mem_cons.mp hw with h | h
      · exact ⟨e, h ▸ hw'⟩
      · simp only [get_json_go, hw'] at hrun
        exact ih (some e) fe hrun w h
    · simp [get_json_go, hw'] at hrun

/-- **C1**: `get_json` tries the candidate URLs in order and returns the
parsed JSON of the first URL whose whole attempt succeeds; it raises a
`FetchError` exactly when every URL's attempt fails, and that error carries
the last underlying error (`None` when there was no URL at all). -/
theorem get_json_first_success_error_iff_all_fail {ε : Type}
    (attempt : List Char → Except ε JVal) (urls : List (List Char)) :
    (∀ us₁ url us₂ v, urls = us₁ ++ url :: us₂ →
      (∀ w ∈ us₁, ∃ e, attempt w = .error e) → attempt url = .ok v →
      get_json attempt urls = .ok v) ∧
    ((∃ fe, get_json attempt urls = .error fe) ↔ ∀ w ∈ urls, ∃ e, attempt w = .error e) ∧
    (∀ us₁ url e, urls = us₁ ++ [url] →
      (∀ w ∈ us₁, ∃ e', attempt w = .error e') → attempt url = .error e →
      get_json attempt urls = .error ⟨some e⟩) ∧
    (urls = [] → get_json attempt urls = .error ⟨none⟩) := by
  refine ⟨?_, ⟨?_, ?_⟩, ?_, ?_⟩
  · intro us₁ url us₂ v hsplit hfail hok
    rw [hsplit]
    exact get_json_go_ok attempt us₁ url us₂ v none hfail hok
  · rintro ⟨fe, hfe⟩
    exact get_json_go_all_fail_of_error attempt urls none fe hfe
  · intro hall
    rcases List.eq_nil_or_concat urls with h | ⟨us₁, url, h⟩
    · exact ⟨⟨none⟩, by simp [h, get_json, get_json_go]⟩
    · obtain ⟨e, he⟩ := hall url (by simp [h])
      refine ⟨⟨some e⟩, ?_⟩
      rw [h, List.concat_eq_append]
      exact get_json_go_error_last attempt us₁ url e none
        (fun w hw => hall w (by simp [h, hw])) he
  · intro us₁ url e hsplit hfail herr
    rw [hsplit]
    exact get_json_go_error_last attempt us₁ url e none hfail herr
  · intro h
    simp [h, get_json, get_json_go]

/-- Witness for C1 at a concrete oracle: the first URL fails, the second
parses, so `get_json` returns the second body. -/
theorem get_json_witness :
    get_json (fun w => if w.length = 1 then Except.error () else Except.ok JVal.null)
      ["a".data, "bc".data] = .ok JVal.null := by
  exact (get_json_first_success_error_iff_all_fail _ _).1 ["a".data] "bc".data [] JVal.null
    rfl
    (by
      intro w hw
      refine ⟨(), ?_⟩
      have hw1 : w = "a".data := by simpa using hw
      subst hw1
      rfl)
    rfl

/-! ## C10: `first_key` treats present-but-null like missing -/

theorem first_key_default (fs : List (String × JVal)) (dflt : JVal) :
    ∀ keys : List String,
      (∀ k ∈ keys, ∀ v, fs.lookup k = some v → v.isNull = true) →
      first_key fs keys dflt = dflt := by
  intro keys
  induction keys with
  | nil => intro _; rfl
  | cons k ks ih =>
    intro h
    rcases hlo : fs.lookup k with _ | v
    · simp only [first_key, hlo]
      exact ih fun k' hk' => h k' (List.mem_cons_of_mem _ hk')
    · have hnull := h k (List.mem_cons_self _ _) v hlo
      simp only [first_key, hlo, hnull, if_true]
      exact ih fun k' hk' => h k' (List.mem_cons_of_mem _ hk')

theorem first_key_found (fs : List (String × JVal)) (dflt : JVal) :
    ∀ (ks₁ : List String) (k : String) (ks₂ : List String) (v : JVal),
      (∀ k' ∈ ks₁, ∀ v', fs.lookup k' = some v' → v'.isNull = true) →
      fs.lookup k = some v → v.isNull = false →
      first_key fs (ks₁ ++ k :: ks₂) dflt = v := by
  intro ks₁
  induction ks₁ with
  | nil =>
    intro k ks₂ v _ hlo hv
    simp [first_key, hlo, hv]
  | cons k' ks' ih =>
    intro k ks₂ v h hlo hv
    rcases hlo' : fs.lookup k' with _ | v'
    · simp only [List.cons_append, first_key, hlo']
      exact ih k ks₂ v (fun x hx => h x (List.mem_cons_of_mem _ hx)) hlo hv
    · have hnull := h k' (List.mem_cons_self _ _) v' hlo'
      simp only [List.cons_append, first_key, hlo', hnull, if_true]
      exact ih k ks₂ v (fun x hx => h x (List.mem_cons_of_mem _ hx)) hlo hv

theorem first_key_null_entry (fs : List (String × JVal)) (dflt : JVal) (k : String)
    (hfresh : fs.lookup k = none) :
    ∀ keys : List String,
      first_key ((k, JVal.null) :: fs) keys dflt = first_key fs keys dflt := by
  intro keys
  induction keys with
  | nil => rfl
  | cons k' ks ih =>
    by_cases hk : k' = k
    · subst hk
      simp [first_key, List.lookup, hfresh, JVal.isNull, ih]
    · have : (k' == k) = false := by simpa using hk
      simp only [first_key, List.lookup, this]
      rcases hlo : fs.lookup k' with _ | v
      · exact ih
      · by_cases hv : v.isNull = true <;> simp [hv, ih]

/-- **C10**: `first_key` returns the value of the first listed key whose
value is present and non-`None`; it returns the default when no listed key
has a non-`None` value; and a key bound to `None` behaves exactly like a key
that is absent from the dict. -/
theorem first_key_semantics (fs : List (String × JVal)) (dflt : JVal) :
    ((∀ ks₁ k ks₂ v, (∀ k' ∈ ks₁, ∀ v', fs.lookup k' = some v' → v'.isNull = true) →
        fs.lookup k = some v → v.isNull = false →
        first_key fs (ks₁ ++ k :: ks₂) dflt = v) ∧
      (∀ keys, (∀ k ∈ keys, ∀ v, fs.lookup k = some v → v.isNull = true) →
        first_key fs keys dflt = dflt)) ∧
    (∀ k, fs.lookup k = none →
      ∀ keys, first_key ((k, JVal.null) :: fs) keys dflt = first_key fs keys dflt) := by
  exact ⟨⟨fun ks₁ k ks₂ v h hlo hv => first_key_found fs dflt ks₁ k ks₂ v h hlo hv,
      fun keys h => first_key_default fs dflt keys h⟩,
    fun k hk keys => first_key_null_entry fs dflt k hk keys⟩

/-- Witness for C10 at a concrete dict: `"a"` is bound to `None`, so lookup
falls through to `"b"`, and prepending another `None` binding for a missing
key changes nothing. -/
theorem first_key_semantics_witness :
    first_key [("a", JVal.null), ("b", JVal.num 5)] ["a", "b"] JVal.null = JVal.num 5 ∧
    first_key [("c", JVal.null), ("a", JVal.null), ("b", JVal.num 5)] ["a", "b"] JVal.null =
      first_key [("a", JVal.null), ("b", JVal.num 5)] ["a", "b"] JVal.null := by
  constructor
  · exact (first_key_semantics [("a", JVal.null), ("b", JVal.num 5)] JVal.null).1.1
      ["a"] "b" [] (JVal.num 5)
      (by
        intro k' hk' v' hv'
        have hk : k' = "a" := by simpa using hk'
        subst hk
        simp only [List.lookup] at hv'
        cases hv'
        rfl)
      rfl rfl
  · exact (first_key_semantics [("a", JVal.null), ("b", JVal.num 5)] JVal.null).2 "c" rfl ["a", "b"]

/-! ## C6: zero-padding of numeric industry codes -/

theorem isDigit_toNat {c : Char} (h : c.isDigit = true) : 48 ≤ c.toNat ∧ c.toNat ≤ 57 := by
  simp [Char.isDigit, Char.le_def] at h
  exact ⟨h.1, h.2⟩

theorem isPySpace_false_of_isDigit {c : Char} (h : c.isDigit = true) :
    isPySpace c = false := by
  have := isDigit_toNat h
  simp only [isPySpace]
  simp
  omega

theorem dropWhile_eq_self_of_none {p : Char → Bool} {l : List Char}
    (h : ∀ c ∈ l, p c = false) : l.dropWhile p = l := by
  cases l with
  | nil => rfl
  | cons c rest =>
    rw [List.dropWhile_cons]
    simp [h c (List.mem_cons_self _ _)]

theorem stripEnds_eq_self {s : List Char} (h : ∀ c ∈ s, isPySpace c = false) :
    stripEnds s = s := by
  unfold stripEnds
  rw [dropWhile_eq_self_of_none h,
    dropWhile_eq_self_of_none (fun c hc => h c (List.mem_reverse.mp hc)),
    List.reverse_reverse]

theorem zfill_two_of_digits {s : List Char} (hne : s ≠ [])
    (hd : ∀ c ∈ s, c.isDigit = true) :
    zfill 2 s = List.replicate (2 - s.length) '0' ++ s := by
  cases s with
  | nil => exact absurd rfl hne
  | cons c rest =>
    have hc := isDigit_toNat (hd c (List.mem_cons_self _ _))
    have hplus : c ≠ '+' := by
      intro h
      subst h
      revert hc
      decide
    have hminus : c ≠ '-' := by
      intro h
      subst h
      revert hc
      decide
    simp [zfill, hplus, hminus]

/-- Evaluation of the `load_industries` loop body on an `IndustrialGroup`
item whose code is the string `s` (no name field present). -/
theorem parseIndustry_code_row (u : UC) (s : List Char) :
    parseIndustry u (.obj [("type", .str "IndustrialGroup".data), ("code", .str s)]) =
      some ⟨if pyIsDigit u (stripEnds s) then zfill 2 (stripEnds s) else stripEnds s,
        normalize_text u.nfkc
          ("IndustrialGroup_".data ++
            (if pyIsDigit u (stripEnds s) then zfill 2 (stripEnds s) else stripEnds s))⟩ := by
  simp [parseIndustry, first_key, List.lookup, isIndustrialGroup, JVal.isNull, pyStr,
    industryNameKeys]

/-- **C6**: in `load_industries`, a (stripped) code consisting purely of
decimal digits is zero-padded to at least 2 characters, while codes of
length ≥ 2 and codes containing a non-digit character are left unchanged:
`"1"` becomes `"01"`, `"12"` stays `"12"`, `"X1"` stays `"X1"`.  The
hypotheses are the UCD facts that the decimal digits carry the digit
property and `'X'` does not. -/
theorem extract_industries_code_padding (u : UC)
    (hdig : ∀ c : Char, c.isDigit = true → u.isdig c = true)
    (hX : u.isdig 'X' = false) :
    (∀ s : List Char, s ≠ [] → (∀ c ∈ s, c.isDigit = true) →
      (parseIndustry u (.obj [("type", .str "IndustrialGroup".data),
          ("code", .str s)])).map Industry.code =
        some (List.replicate (2 - s.length) '0' ++ s)) ∧
    (∀ s : List Char, (∀ c ∈ s, isPySpace c = false) → (∃ c ∈ s, u.isdig c = false) →
      (parseIndustry u (.obj [("type", .str "IndustrialGroup".data),
          ("code", .str s)])).map Industry.code = some s) ∧
    ((parseIndustry u (.obj [("type", .str "IndustrialGroup".data),
        ("code", .str "1".data)])).map Industry.code = some "01".data) ∧
    ((parseIndustry u (.obj [("type", .str "IndustrialGroup".data),
        ("code", .str "12".data)])).map Industry.code = some "12".data) ∧
    ((parseIndustry u (.obj [("type", .str "IndustrialGroup".data),
        ("code", .str "X1".data)])).map Industry.code = some "X1".data) := by
  have general : ∀ s : List Char, s ≠ [] → (∀ c ∈ s, c.isDigit = true) →
      (parseIndustry u (.obj [("type", .str "IndustrialGroup".data),
          ("code", .str s)])).map Industry.code =
        some (List.replicate (2 - s.length) '0' ++ s) := by
    intro s hne hd
    have hstrip : stripEnds s = s :=
      stripEnds_eq_self fun c hc => isPySpace_false_of_isDigit (hd c hc)
    have hpd : pyIsDigit u s = true := by
      simp only [pyIsDigit, Bool.and_eq_true, Bool.not_eq_true', List.isEmpty_eq_false,
        List.all_eq_true]
      exact ⟨by simpa using hne, fun c hc => hdig c (hd c hc)⟩
    rw [parseIndustry_code_row, hstrip]
    simp [hpd, zfill_two_of_digits hne hd]
  have nonnum : ∀ s : List Char, (∀ c ∈ s, isPySpace c = false) →
      (∃ c ∈ s, u.isdig c = false) →
      (parseIndustry u (.obj [("type", .str "IndustrialGroup".data),
          ("code", .str s)])).map Industry.code = some s := by
    intro s hns ⟨c, hc, hcd⟩
    have hstrip : stripEnds s = s := stripEnds_eq_self hns
    have hall : s.all u.isdig = false := by
      rw [List.all_eq_false]
      exact ⟨c, hc, by simp [hcd]⟩
    have hpd : pyIsDigit u s = false := by
      simp [pyIsDigit, hall]
    rw [parseIndustry_code_row, hstrip]
    simp [hpd]
  refine ⟨general, nonnum, ?_, ?_, ?_⟩
  · have := general "1".data (by decide) (by decide)
    simpa using this
  · have := general "12".data (by decide) (by decide)
    simpa using this
  · exact nonnum "X1".data (by decide) ⟨'X', by decide, hX⟩

/-- Witness for C6 at a concrete `UC` whose digit predicate is the ASCII
one. -/
theorem extract_industries_code_padding_witness :
    (parseIndustry ⟨id, fun c => c.isAlphanum || c = '_', Char.isDigit⟩
      (.obj [("type", .str "IndustrialGroup".data),
        ("code", .str "1".data)])).map Industry.code = some "01".data := by
  exact (extract_industries_code_padding ⟨id, fun c => c.isAlphanum || c = '_', Char.isDigit⟩
    (fun _ h => h) (by decide)).2.2.1

/-! ## C7: row inclusion in `load_companies_for_industry` -/

/-- **C7**: once the instrument mapping of a row is located, the row yields a
company if and only if both an internal id and a symbol are found (non-`None`)
under their alias keys; rows missing either are skipped (no error is
possible); the display name is optional — when absent the company's name is
the empty string — and id/symbol are taken from the located values. -/
theorem extract_companies_row_inclusion (u : UC) (fs ifs : List (String × JVal))
    (hinstr : pyInstr fs = .obj ifs) :
    ((parseCompany u (.obj fs)).isSome = true ↔
      (first_key ifs companyIdKeys .null).isNull = false ∧
      (first_key ifs companySymbolKeys .null).isNull = false) ∧
    (∀ c, parseCompany u (.obj fs) = some c →
      ((first_key ifs companyNameKeys .null).isNull = true → c.name = []) ∧
      c.id = stripEnds (pyStr (first_key ifs companyIdKeys .null)) ∧
      c.symbol = normalize_text u.nfkc (pyStr (first_key ifs companySymbolKeys .null))) := by
  have hunfold : parseCompany u (.obj fs) =
      (if (first_key ifs companyIdKeys .null).isNull ∨
          (first_key ifs companySymbolKeys .null).isNull then none
        else some ⟨stripEnds (pyStr (first_key ifs companyIdKeys .null)),
          normalize_text u.nfkc (pyStr (first_key ifs companySymbolKeys .null)),
          if (first_key ifs companyNameKeys .null).isNull then []
          else normalize_text u.nfkc (pyStr (first_key ifs companyNameKeys .null))⟩) := by
    simp only [parseCompany, hinstr]
    rcases hid : (first_key ifs companyIdKeys .null).isNull <;>
      rcases hsym : (first_key ifs companySymbolKeys .null).isNull <;>
      simp [hid, hsym]
  constructor
  · rw [hunfold]
    rcases hid : (first_key ifs companyIdKeys .null).isNull <;>
      rcases hsym : (first_key ifs companySymbolKeys .null).isNull <;>
      simp [hid, hsym]
  · intro c hc
    rw [hunfold] at hc
    rcases hid : (first_key ifs companyIdKeys .null).isNull <;>
      rcases hsym : (first_key ifs companySymbolKeys .null).isNull <;>
      simp only [hid, hsym, Bool.true_or, Bool.or_true, Bool.or_self, if_true, if_false,
        reduceIte] at hc
    · cases hc
      refine ⟨fun hname => by simp [hname], rfl, rfl⟩
    · cases hc
    · cases hc
    · cases hc

/-- Witness for C7: a row carrying its fields directly (the located
instrument is the row itself) is included, with an empty name. -/
theorem extract_companies_row_inclusion_witness :
    parseCompany ucAscii (.obj emptyInstrRow) = some ⟨"7".data, "S".data, []⟩ := by
  have h := (extract_companies_row_inclusion ucAscii emptyInstrRow emptyInstrRow rfl).2
    ⟨"7".data, "S".data, []⟩
  rfl

/-! ## C8: locating the instrument mapping (corrected) -/

/-- **C8 (counterexample)**: it is *not* true that the row-itself fallback
happens exactly when no nested mapping exists — `emptyInstrRow` holds a
nested (empty, hence falsy) mapping under `"instrument"`, yet the code falls
back to the row and extracts the row-level fields. -/
theorem instrument_fallback_cex :
    ¬ (∀ fs : List (String × JVal),
        (∃ m, List.lookup "instrument" fs = some (JVal.obj m)) →
        pyInstr fs ≠ JVal.obj fs) := by
  intro h
  exact h emptyInstrRow ⟨[], rfl⟩ rfl

/-- **C8 (amended)**: `load_companies_for_industry` selects as instrument the
first *truthy* value under `"instrument"`/`"Instrument"`, and falls back to
treating the row itself as the instrument exactly when neither key holds a
truthy value (missing, `None`, or falsy — e.g. an empty mapping); when the
selected truthy value is not a mapping the row is skipped. -/
theorem instrument_selection (u : UC) (fs : List (String × JVal)) :
    (pyTruthy (dictGet fs "instrument") = true → pyInstr fs = dictGet fs "instrument") ∧
    (pyTruthy (dictGet fs "instrument") = false → pyTruthy (dictGet fs "Instrument") = true →
      pyInstr fs = dictGet fs "Instrument") ∧
    (pyTruthy (dictGet fs "instrument") = false → pyTruthy (dictGet fs "Instrument") = false →
      pyInstr fs = JVal.obj fs) ∧
    ((∀ ifs, pyInstr fs ≠ JVal.obj ifs) → parseCompany u (.obj fs) = none) := by
  refine ⟨fun h1 => by simp [pyInstr, h1], fun h1 h2 => by simp [pyInstr, h1, h2],
    fun h1 h2 => by simp [pyInstr, h1, h2], fun h => ?_⟩
  rcases hi : pyInstr fs with _ | b | n | s | xs | ifs
  · simp [parseCompany, hi]
  · simp [parseCompany, hi]
  · simp [parseCompany, hi]
  · simp [parseCompany, hi]
  · simp [parseCompany, hi]
  · exact absurd hi (h ifs)

/-- Witness for C8's amended theorem: on `emptyInstrRow` both keys are
falsy, so the fallback to the row itself is taken. -/
theorem instrument_selection_witness :
    pyInstr emptyInstrRow = JVal.obj emptyInstrRow :=
  (instrument_selection ucAscii emptyInstrRow).2.2.1 rfl rfl

/-! ## C3: stable first-wins deduplication -/

theorem dedupBy_sublist {α : Type} (key : α → List Char) :
    ∀ (l : List α) (seen : List (List Char)), List.Sublist (dedupBy key seen l) l := by
  intro l
  induction l with
  | nil => intro _; simp [dedupBy]
  | cons x rest ih =>
    intro seen
    by_cases h : key x ∈ seen
    · simp only [dedupBy, if_pos h]
      exact (ih seen).trans (List.sublist_cons_self x rest)
    · simp only [dedupBy, if_neg h]
      exact (ih (key x :: seen)).cons₂ x

theorem dedupBy_mem_find {α : Type} (key : α → List Char) :
    ∀ (l : List α) (seen : List (List Char)) (y : α), y ∈ dedupBy key seen l →
      key y ∉ seen ∧ l.find? (fun z => decide (key z = key y)) = some y := by
  intro l
  induction l with
  | nil => intro seen y h; simp [dedupBy] at h
  | cons x rest ih =>
    intro seen y hy
    by_cases hx : key x ∈ seen
    · rw [dedupBy, if_pos hx] at hy
      obtain ⟨h1, h2⟩ := ih seen y hy
      refine ⟨h1, ?_⟩
      rw [List.find?_cons]
      rcases hpx : decide (key x = key y) with _ | _
      · exact h2
      · exact absurd (of_decide_eq_true hpx ▸ hx) h1
    · rw [dedupBy, if_neg hx] at hy
      rcases List.mem_cons.mp hy with h | h
      · subst h
        refine ⟨hx, ?_⟩
        rw [List.find?_cons]
        simp
      · obtain ⟨h1, h2⟩ := ih (key x :: seen) y h
        have hne : key x ≠ key y := fun he => h1 (he ▸ List.mem_cons_self _ _)
        refine ⟨fun hc => h1 (List.mem_cons_of_mem _ hc), ?_⟩
        rw [List.find?_cons]
        rcases hpx : decide (key x = key y) with _ | _
        · exact h2
        · exact absurd (of_decide_eq_true hpx) hne

theorem dedupBy_cover {α : Type} (key : α → List Char) :
    ∀ (l : List α) (seen : List (List Char)) (x : α), x ∈ l →
      key x ∈ seen ∨ ∃ y ∈ dedupBy key seen l, key y = key x := by
  intro l
  induction l with
  | nil => intro _ _ h; cases h
  | cons z rest ih =>
    intro seen x hx
    by_cases hz : key z ∈ seen
    · rw [dedupBy, if_pos hz]
      rcases List.mem_cons.mp hx with h | h
      · exact Or.inl (h ▸ hz)
      · exact ih seen x h
    · rw [dedupBy, if_neg hz]
      rcases List.mem_cons.mp hx with h | h
      · exact Or.inr ⟨z, List.mem_cons_self _ _, by rw [h]⟩
      · rcases ih (key z :: seen) x h with hmem | ⟨y, hy, hky⟩
        · rcases List.mem_cons.mp hmem with h' | h'
          · exact Or.inr ⟨z, List.mem_cons_self _ _, h'.symm⟩
          · exact Or.inl h'
        · exact Or.inr ⟨y, List.mem_cons_of_mem _ hy, hky⟩

theorem dedupBy_nodup {α : Type} (key : α → List Char) :
    ∀ (l : List α) (seen : List (List Char)),
      ((dedupBy key seen l).map key).Nodup ∧
      ∀ k ∈ (dedupBy key seen l).map key, k ∉ seen := by
  intro l
  induction l with
  | nil => intro _; simp [dedupBy]
  | cons x rest ih =>
    intro seen
    by_cases hx : key x ∈ seen
    · rw [dedupBy, if_pos hx]
      exact ih seen
    · rw [dedupBy, if_neg hx]
      obtain ⟨hnd, hdisj⟩ := ih (key x :: seen)
      rw [List.map_cons]
      refine ⟨List.nodup_cons.mpr ⟨fun hmem => ?_, hnd⟩, ?_⟩
      · exact hdisj _ hmem (List.mem_cons_self _ _)
      · intro k hk
        rcases List.mem_cons.mp hk with h | h
        · exact h ▸ hx
        · exact fun hc => hdisj k h (List.mem_cons_of_mem _ hc)

/-- **C3**: both extractors deduplicate keeping the first occurrence and
preserving encounter order: the deduplicated list is a sublist (order kept)
of the parsed entries, its keys are pairwise distinct, every parsed entry's
key is represented, each kept entry is the *first* parsed entry with its key,
and two rows sharing an id but differing in other fields yield exactly the
first row's company. -/
theorem extract_dedup_first_wins (u : UC) (items rows : List JVal) :
    (List.Sublist (extract_industries_items u items) (items.filterMap (parseIndustry u)) ∧
      ((extract_industries_items u items).map Industry.code).Nodup ∧
      (∀ x ∈ items.filterMap (parseIndustry u),
        ∃ y ∈ extract_industries_items u items, y.code = x.code) ∧
      (∀ y ∈ extract_industries_items u items,
        (items.filterMap (parseIndustry u)).find? (fun z => decide (z.code = y.code)) =
          some y)) ∧
    (List.Sublist (extract_companies_rows u rows) (rows.filterMap (parseCompany u)) ∧
      ((extract_companies_rows u rows).map Company.id).Nodup ∧
      (∀ x ∈ rows.filterMap (parseCompany u),
        ∃ y ∈ extract_companies_rows u rows, y.id = x.id) ∧
      (∀ y ∈ extract_companies_rows u rows,
        (rows.filterMap (parseCompany u)).find? (fun z => decide (z.id = y.id)) = some y)) ∧
    (∀ r₁ r₂ c₁ c₂, parseCompany u r₁ = some c₁ → parseCompany u r₂ = some c₂ →
      c₂.id = c₁.id → extract_companies_rows u [r₁, r₂] = [c₁]) := by
  refine ⟨⟨dedupBy_sublist _ _ _, (dedupBy_nodup _ _ _).1, ?_, ?_⟩,
    ⟨dedupBy_sublist _ _ _, (dedupBy_nodup _ _ _).1, ?_, ?_⟩, ?_⟩
  · intro x hx
    rcases dedupBy_cover Industry.code _ [] x hx with h | ⟨y, hy, hky⟩
    · cases h
    · exact ⟨y, hy, hky⟩
  · intro y hy
    exact (dedupBy_mem_find Industry.code _ [] y hy).2
  · intro x hx
    rcases dedupBy_cover Company.id _ [] x hx with h | ⟨y, hy, hky⟩
    · cases h
    · exact ⟨y, hy, hky⟩
  · intro y hy
    exact (dedupBy_mem_find Company.id _ [] y hy).2
  · intro r₁ r₂ c₁ c₂ h₁ h₂ heq
    simp only [extract_companies_rows, List.filterMap, h₁, h₂]
    simp [dedupBy, heq]

/-- Witness for C3: two rows with the same internal id but different symbols
collapse to the first row's company. -/
theorem extract_dedup_first_wins_witness :
    extract_companies_rows ucAscii
      [.obj [("insCode", .str "7".data), ("lVal18AFC", .str "A".data)],
       .obj [("insCode", .str "7".data), ("lVal18AFC", .str "B".data)]] =
      [⟨"7".data, "A".data, []⟩] := by
  exact (extract_dedup_first_wins ucAscii [] []).2.2
    (.obj [("insCode", .str "7".data), ("lVal18AFC", .str "A".data)])
    (.obj [("insCode", .str "7".data), ("lVal18AFC", .str "B".data)])
    ⟨"7".data, "A".data, []⟩ ⟨"7".data, "B".data, []⟩ rfl rfl rfl

/-! ## C4: slugify output is a safe file-name component -/

theorem mem_collapseWith {r : Char} :
    ∀ (cs : List Char) (b : Bool) (c : Char), c ∈ collapseWith r b cs →
      c = r ∨ (c ∈ cs ∧ isPySpace c = false) := by
  intro cs
  induction cs with
  | nil => intro b c h; simp [collapseWith] at h
  | cons x rest ih =>
    intro b c h
    by_cases hx : isPySpace x = true
    · rw [collapseWith, if_pos hx] at h
      cases b with
      | true =>
        rcases ih true c h with h' | ⟨hm, hs⟩
        · exact Or.inl h'
        · exact Or.inr ⟨List.mem_cons_of_mem _ hm, hs⟩
      | false =>
        rcases List.mem_cons.mp h with h' | h'
        · exact Or.inl h'
        · rcases ih true c h' with h'' | ⟨hm, hs⟩
          · exact Or.inl h''
          · exact Or.inr ⟨List.mem_cons_of_mem _ hm, hs⟩
    · rw [collapseWith, if_neg hx] at h
      rcases List.mem_cons.mp h with h' | h'
      · subst h'
        exact Or.inr ⟨List.mem_cons_self _ _, by simpa using hx⟩
      · rcases ih false c h' with h'' | ⟨hm, hs⟩
        · exact Or.inl h''
        · exact Or.inr ⟨List.mem_cons_of_mem _ hm, hs⟩

/-- **C4**: for every input, `slugify` returns only word characters and
hyphens (in particular no whitespace and no path separators `/` or `\`), at
most 120 characters, and never the empty string — when the processed text is
empty it returns the literal `"unknown"`.  The hypotheses are the UCD facts
that word characters are not whitespace, that `_` is a word character and
`/`, `\` are not, and that the letters of `"unknown"` are word
characters. -/
theorem slugify_safe (u : UC) (cs : List Char)
    (hw : ∀ c, u.isWord c = true → isPySpace c = false)
    (hunder : u.isWord '_' = true)
    (hletters : ∀ c ∈ "unknown".data, u.isWord c = true)
    (hslash : u.isWord '/' = false)
    (hback : u.isWord '\\' = false) :
    (∀ c ∈ slugify u cs, u.isWord c = true ∨ c = '-') ∧
    (∀ c ∈ slugify u cs, isPySpace c = false ∧ c ≠ '/' ∧ c ≠ '\\') ∧
    (slugify u cs).length ≤ 120 ∧
    slugify u cs ≠ [] ∧
    (collapseWith '_' false ((normalize_text u.nfkc cs).filter (slugKeep u)) = [] →
      slugify u cs = "unknown".data) := by
  by_cases h3 : collapseWith '_' false ((normalize_text u.nfkc cs).filter (slugKeep u)) = []
  · have hout : slugify u cs = "unknown".data := by
      simp only [slugify, h3, if_pos]
    refine ⟨?_, ?_, ?_, ?_, fun _ => hout⟩ <;> rw [hout]
    · exact fun c hc => Or.inl (hletters c hc)
    · intro c hc
      fin_cases hc <;> exact ⟨by decide, by decide, by decide⟩
    · decide
    · decide
  · have hout : slugify u cs =
        (collapseWith '_' false ((normalize_text u.nfkc cs).filter (slugKeep u))).take 120 := by
      simp only [slugify, h3, if_neg, if_false, reduceIte]
    have hchars : ∀ c ∈ slugify u cs, u.isWord c = true ∨ c = '-' := by
      intro c hc
      rw [hout] at hc
      have hc3 := List.take_subset _ _ hc
      rcases mem_collapseWith _ _ _ hc3 with h' | ⟨hm, hs⟩
      · exact Or.inl (h' ▸ hunder)
      · have := (List.mem_filter.mp hm).2
        simp only [slugKeep, Bool.or_eq_true] at this
        rcases this with (hword | hspace) | hhyph
        · exact Or.inl hword
        · rw [hspace] at hs; cases hs
        · exact Or.inr (by simpa using hhyph)
    refine ⟨hchars, ?_, ?_, ?_, fun h => absurd h h3⟩
    · intro c hc
      rcases hchars c hc with hword | hhyph
      · refine ⟨hw c hword, fun h => ?_, fun h => ?_⟩
        · rw [h] at hword; rw [hword] at hslash; cases hslash
        · rw [h] at hword; rw [hword] at hback; cases hback
      · subst hhyph
        exact ⟨by decide, by decide, by decide⟩
    · rw [hout, List.length_take]
      exact min_le_left _ _
    · rw [hout]
      intro hnil
      have hlen : (collapseWith '_' false
          ((normalize_text u.nfkc cs).filter (slugKeep u))).length ≠ 0 :=
        fun h => h3 (List.eq_nil_of_length_eq_zero h)
      have := congrArg List.length hnil
      rw [List.length_take] at this
      simp only [List.length_nil] at this
      omega

theorem isPySpace_false_of_toNat {c : Char}
    (h : 48 ≤ c.toNat ∧ c.toNat ≤ 57 ∨ 65 ≤ c.toNat ∧ c.toNat ≤ 90 ∨
      97 ≤ c.toNat ∧ c.toNat ≤ 122) : isPySpace c = false := by
  simp only [isPySpace]
  simp
  omega

theorem ucAscii_word_not_space : ∀ c : Char, ucAscii.isWord c = true → isPySpace c = false := by
  intro c h
  simp only [ucAscii, Char.isAlphanum, Char.isAlpha, Char.isDigit, Char.isUpper, Char.isLower,
    Bool.or_eq_true, Bool.and_eq_true, decide_eq_true_eq] at h
  rcases h with ((⟨h1, h2⟩ | ⟨h1, h2⟩) | ⟨h1, h2⟩) | h1
  · exact isPySpace_false_of_toNat (Or.inr (Or.inl ⟨h1, h2⟩))
  · exact isPySpace_false_of_toNat (Or.inr (Or.inr ⟨h1, h2⟩))
  · exact isPySpace_false_of_toNat (Or.inl ⟨h1, h2⟩)
  · subst h1; decide

/-- Witness for C4: the all-whitespace input collapses to nothing, so the
fallback `"unknown"` is returned. -/
theorem slugify_safe_witness : slugify ucAscii "  ".data = "unknown".data := by
  exact (slugify_safe ucAscii "  ".data ucAscii_word_not_space (by decide) (by decide)
    (by decide) (by decide)).2.2.2.2 rfl

/-! ## C5: idempotence of `normalize_text` -/

theorem collapseWith_space_idem :
    ∀ (cs : List Char) (b : Bool),
      collapseWith ' ' b (collapseWith ' ' b cs) = collapseWith ' ' b cs := by
  intro cs
  induction cs with
  | nil => intro b; rfl
  | cons c rest ih =>
    intro b
    by_cases hc : isPySpace c = true
    · cases b with
      | true =>
        simp only [collapseWith, hc, if_true, reduceIte]
        exact ih true
      | false =>
        simp only [collapseWith, hc, if_true, if_false, reduceIte]
        have hsp : isPySpace ' ' = true := by decide
        simp only [collapseWith, hsp, if_true, if_false, reduceIte]
        rw [ih true]
    · simp only [collapseWith, hc, if_false, reduceIte, Bool.false_eq_true]
      rw [ih false]

theorem collapseWith_true_head :
    ∀ (cs : List Char) (d : Char) (l : List Char),
      collapseWith ' ' true cs = d :: l → isPySpace d = false := by
  intro cs
  induction cs with
  | nil => intro d l h; cases h
  | cons c rest ih =>
    intro d l h
    by_cases hc : isPySpace c = true
    · rw [collapseWith, if_pos hc] at h
      exact ih d l h
    · rw [collapseWith, if_neg hc] at h
      cases h
      simpa using hc

theorem collapse_allPlain (cs : List Char) (b : Bool) :
    allSpacesPlain (collapseWith ' ' b cs) := by
  intro c hc hsp
  rcases mem_collapseWith cs b c hc with h | ⟨_, hns⟩
  · exact h
  · rw [hns] at hsp; cases hsp

theorem collapse_noTwo : ∀ (cs : List Char) (b : Bool), noTwoSpaces (collapseWith ' ' b cs) := by
  intro cs
  induction cs with
  | nil => intro b; exact List.chain'_nil
  | cons c rest ih =>
    intro b
    by_cases hc : isPySpace c = true
    · cases b with
      | true =>
        rw [collapseWith, if_pos hc]
        exact ih true
      | false =>
        rw [collapseWith, if_pos hc, if_neg Bool.false_ne_true]
        rw [noTwoSpaces, List.chain'_cons']
        refine ⟨?_, ih true⟩
        intro y hy
        rcases hhd : collapseWith ' ' true rest with _ | ⟨d, l⟩
        · rw [hhd] at hy; cases hy
        · rw [hhd] at hy
          simp only [List.head?_cons, Option.mem_def, Option.some.injEq] at hy
          subst hy
          have hhead := collapseWith_true_head rest d l hhd
          intro hand
          rw [hhead] at hand
          cases hand.2
    · rw [collapseWith, if_neg hc]
      rw [noTwoSpaces, List.chain'_cons']
      refine ⟨?_, ih false⟩
      intro y _ hand
      exact hc hand.1

theorem collapse_fix :
    ∀ cs : List Char, allSpacesPlain cs → noTwoSpaces cs →
      collapseWith ' ' false cs = cs := by
  intro cs
  induction cs with
  | nil => intro _ _; rfl
  | cons c rest ih =>
    intro hall hch
    have hall' : allSpacesPlain rest := fun x hx => hall x (List.mem_cons_of_mem _ hx)
    have hch' : noTwoSpaces rest := (List.chain'_cons'.mp hch).2
    by_cases hc : isPySpace c = true
    · have hcsp : c = ' ' := hall c (List.mem_cons_self _ _) hc
      subst hcsp
      rw [collapseWith, if_pos hc, if_neg Bool.false_ne_true]
      congr 1
      rcases rest with _ | ⟨d, r2⟩
      · rfl
      · have hrel := (List.chain'_cons'.mp hch).1 d (by simp)
        have hd : isPySpace d = false := by
          by_cases h : isPySpace d = true
          · exact absurd ⟨hc, h⟩ hrel
          · simpa using h
        have hstep := ih hall' hch'
        rw [collapseWith, if_neg (by simp [hd])] at hstep
        rw [collapseWith, if_neg (by simp [hd])]
        exact hstep
    · rw [collapseWith, if_neg hc]
      congr 1
      exact ih hall' hch'

theorem dropWhile_head_false {p : Char → Bool} :
    ∀ (l : List Char) (d : Char) (r : List Char), l.dropWhile p = d :: r → p d = false := by
  intro l
  induction l with
  | nil => intro d r h; cases h
  | cons c rest ih =>
    intro d r h
    by_cases hc : p c = true
    · rw [List.dropWhile_cons, if_pos hc] at h
      exact ih d r h
    · rw [List.dropWhile_cons, if_neg hc] at h
      cases h
      simpa using hc

theorem dropWhile_idem {p : Char → Bool} (l : List Char) :
    (l.dropWhile p).dropWhile p = l.dropWhile p := by
  rcases h : l.dropWhile p with _ | ⟨d, r⟩
  · rfl
  · rw [List.dropWhile_cons, if_neg (by simp [dropWhile_head_false l d r h])]

theorem stripEnds_isInfix (cs : List Char) : stripEnds cs <:+: cs := by
  have ha : cs.dropWhile isPySpace <:+ cs := List.dropWhile_suffix _
  have hb : (cs.dropWhile isPySpace).reverse.dropWhile isPySpace <:+
      (cs.dropWhile isPySpace).reverse := List.dropWhile_suffix _
  have hpre : stripEnds cs <+: cs.dropWhile isPySpace := by
    rw [← List.reverse_suffix]
    simpa [stripEnds] using hb
  exact hpre.isInfix.trans ha.isInfix

theorem stripEnds_subset {cs : List Char} : ∀ c ∈ stripEnds cs, c ∈ cs :=
  fun _ hc => (stripEnds_isInfix cs).sublist.subset hc

theorem stripEnds_allPlain {cs : List Char} (h : allSpacesPlain cs) :
    allSpacesPlain (stripEnds cs) :=
  fun c hc => h c (stripEnds_subset c hc)

theorem stripEnds_noTwo {cs : List Char} (h : noTwoSpaces cs) :
    noTwoSpaces (stripEnds cs) :=
  List.Chain'.infix h (stripEnds_isInfix cs)

theorem stripEnds_idem (cs : List Char) : stripEnds (stripEnds cs) = stripEnds cs := by
  have key : (stripEnds cs).dropWhile isPySpace = stripEnds cs := by
    rcases ht : stripEnds cs with _ | ⟨th, tt⟩
    · rfl
    · have hpre : stripEnds cs <+: cs.dropWhile isPySpace := by
        rw [← List.reverse_suffix]
        simpa [stripEnds] using
          (List.dropWhile_suffix (l := (cs.dropWhile isPySpace).reverse) isPySpace)
      rw [ht] at hpre
      obtain ⟨s, hs⟩ := hpre
      have hth : isPySpace th = false :=
        dropWhile_head_false cs th (tt ++ s) (by rw [← hs]; simp)
      rw [List.dropWhile_cons, if_neg (by simp [hth])]
  have hrev : (stripEnds cs).reverse =
      List.dropWhile isPySpace (List.dropWhile isPySpace cs).reverse := by
    simp [stripEnds]
  calc stripEnds (stripEnds cs)
      = (List.dropWhile isPySpace ((stripEnds cs).dropWhile isPySpace).reverse).reverse := rfl
    _ = (List.dropWhile isPySpace (stripEnds cs).reverse).reverse := by rw [key]
    _ = (List.dropWhile isPySpace (List.dropWhile isPySpace
          (List.dropWhile isPySpace cs).reverse)).reverse := by rw [hrev]
    _ = (List.dropWhile isPySpace (List.dropWhile isPySpace cs).reverse).reverse := by
          rw [dropWhile_idem]
    _ = stripEnds cs := rfl

theorem mem_replaceMarks {cs : List Char} {c : Char} (h : c ∈ replaceMarks cs) :
    c = ' ' ∨ (c ≠ Char.ofNat 8204 ∧ c ≠ Char.ofNat 8207 ∧ c ≠ Char.ofNat 8206) := by
  simp only [replaceMarks, List.mem_map] at h
  obtain ⟨d, _, hd⟩ := h
  by_cases hm : d = Char.ofNat 8204 ∨ d = Char.ofNat 8207 ∨ d = Char.ofNat 8206
  · left
    rw [← hd]
    rcases hm with h' | h' | h' <;> simp [h']
  · right
    push_neg at hm
    rw [← hd]
    simp only [if_neg (by simp [hm.1, hm.2.1, hm.2.2] : ¬(d = Char.ofNat 8204 ||
      d = Char.ofNat 8207 || d = Char.ofNat 8206) = true)]
    exact ⟨hm.1, hm.2.1, hm.2.2⟩

theorem replaceMarks_eq_self {cs : List Char}
    (h : ∀ c ∈ cs, c ≠ Char.ofNat 8204 ∧ c ≠ Char.ofNat 8207 ∧ c ≠ Char.ofNat 8206) :
    replaceMarks cs = cs := by
  induction cs with
  | nil => rfl
  | cons c rest ih =>
    obtain ⟨h1, h2, h3⟩ := h c (List.mem_cons_self _ _)
    simp only [replaceMarks, List.map_cons]
    rw [if_neg (by simp [h1, h2, h3])]
    congr 1
    exact ih fun x hx => h x (List.mem_cons_of_mem _ hx)

theorem postNorm_no_marks (x : List Char) :
    ∀ c ∈ postNorm x,
      c ≠ Char.ofNat 8204 ∧ c ≠ Char.ofNat 8207 ∧ c ≠ Char.ofNat 8206 := by
  intro c hc
  have hc1 := stripEnds_subset c hc
  rcases mem_collapseWith _ _ _ hc1 with h | ⟨hm, _⟩
  · subst h; refine ⟨by decide, by decide, by decide⟩
  · rcases mem_replaceMarks hm with h | h
    · subst h; refine ⟨by decide, by decide, by decide⟩
    · exact h

theorem postNorm_idem (x : List Char) : postNorm (postNorm x) = postNorm x := by
  have hmarks : replaceMarks (postNorm x) = postNorm x :=
    replaceMarks_eq_self (postNorm_no_marks x)
  have hplain : allSpacesPlain (postNorm x) :=
    stripEnds_allPlain (collapse_allPlain _ _)
  have hchain : noTwoSpaces (postNorm x) :=
    stripEnds_noTwo (collapse_noTwo _ _)
  show stripEnds (collapseWith ' ' false (replaceMarks (postNorm x))) = postNorm x
  rw [hmarks, collapse_fix _ hplain hchain]
  exact stripEnds_idem _

/-- **C5**: `normalize_text` is idempotent.  The hypotheses are the two
Unicode guarantees about the external NFKC transform: it is idempotent
(UAX #15 normalization stability), and it fixes the result of the pure
post-processing (mark replacement, whitespace collapsing and stripping) of
an already-normalized string — post-processing only substitutes plain
spaces for format characters and deletes whitespace, which cannot create a
decomposable or recomposable sequence. -/
theorem normalize_text_idem (nfkc : List Char → List Char)
    (hnn : ∀ s, nfkc (nfkc s) = nfkc s)
    (hstable : ∀ s, nfkc s = s → nfkc (postNorm s) = postNorm s) :
    ∀ cs, normalize_text nfkc (normalize_text nfkc cs) = normalize_text nfkc cs := by
  intro cs
  show postNorm (nfkc (postNorm (nfkc cs))) = postNorm (nfkc cs)
  rw [hstable (nfkc cs) (hnn cs)]
  exact postNorm_idem _

/-- Witness for C5: with the identity NFKC transform (correct on the input's
characters), normalizing twice equals normalizing once on a string holding a
zero-width non-joiner and repeated whitespace. -/
theorem normalize_text_idem_witness :
    normalize_text id (normalize_text id ("a".data ++ [Char.ofNat 8204] ++ "  b ".data)) =
      normalize_text id ("a".data ++ [Char.ofNat 8204] ++ "  b ".data) := by
  exact normalize_text_idem id (fun _ => rfl) (fun _ _ => rfl) _

/-! ## C9: non-clobbering per-industry file names -/

theorem rfind_eq_neg_one_of_not_mem {c : Char} :
    ∀ l : List Char, c ∉ l → rfind c l = -1 := by
  intro l
  induction l with
  | nil => intro _; rfl
  | cons x rest ih =>
    intro h
    have hx : ¬(x = c) := fun he => h (he ▸ List.mem_cons_self _ _)
    have hr : rfind c rest = -1 := ih fun hm => h (List.mem_cons_of_mem _ hm)
    rw [rfind]
    simp only [hr]
    rw [if_neg (by omega), if_neg hx]

theorem rfind_append_found {c : Char} (xs : List Char) {ys : List Char}
    (h : 0 ≤ rfind c ys) : rfind c (xs ++ ys) = xs.length + rfind c ys := by
  induction xs with
  | nil => simp
  | cons x rest ih =>
    rw [List.cons_append, rfind]
    simp only [ih]
    rw [if_pos (by omega)]
    simp only [List.length_cons]
    push_cast
    ring

theorem rfind_append_missing {c : Char} (xs : List Char) {ys : List Char}
    (h : c ∉ ys) : rfind c (xs ++ ys) = rfind c xs := by
  induction xs with
  | nil => simp [rfind, rfind_eq_neg_one_of_not_mem ys h]
  | cons x rest ih =>
    rw [List.cons_append, rfind, rfind]
    simp only [ih]

theorem splitext_dir_slug (slug : List Char) (hne : slug ≠ []) (hdot : '.' ∉ slug)
    (hsl : '/' ∉ slug) :
    splitext ("industries/".data ++ slug ++ ".csv".data) =
      ("industries/".data ++ slug, ".csv".data) := by
  have hdot2 : rfind '.' (slug ++ ".csv".data) = (slug.length : Int) := by
    rw [rfind_append_found slug (by decide : (0:Int) ≤ rfind '.' ".csv".data)]
    norm_num [show rfind '.' ".csv".data = 0 from by decide]
  have hdotIdx : rfind '.' ("industries/".data ++ (slug ++ ".csv".data)) =
      (11 : Int) + slug.length := by
    rw [rfind_append_found "industries/".data (by rw [hdot2]; exact Int.ofNat_nonneg _), hdot2]
    norm_num
  have hslcsv : '/' ∉ slug ++ ".csv".data := by
    intro hmem
    rcases List.mem_append.mp hmem with h | h
    · exact hsl h
    · revert h; decide
  have hsepIdx : rfind '/' ("industries/".data ++ (slug ++ ".csv".data)) = 10 := by
    rw [rfind_append_missing "industries/".data hslcsv]
    decide
  obtain ⟨s0, tl, hs⟩ : ∃ s0 tl, slug = s0 :: tl := by
    rcases slug with _ | ⟨a, b⟩
    · exact absurd rfl hne
    · exact ⟨a, b, rfl⟩
  have hs0 : ¬(s0 = '.') := fun he => hdot (hs ▸ he ▸ List.mem_cons_self _ _)
  have hall : (slug.all fun c => c = '.') = false := by
    rw [List.all_eq_false]
    exact ⟨s0, hs ▸ List.mem_cons_self _ _, by simpa using hs0⟩
  have hlen11 : "industries/".data.length = 11 := by decide
  have hlendir : ("industries/".data ++ slug).length = 11 + slug.length := by
    rw [List.length_append, hlen11]
  simp only [splitext, List.append_assoc, hsepIdx, hdotIdx]
  rw [if_pos (by omega : (10:Int) < 11 + (slug.length : Int))]
  have hd : ((11:Int) + (slug.length : Int)).toNat = 11 + slug.length := by omega
  have hf : ((10:Int) + 1).toNat = 11 := by decide
  rw [hd, hf]
  have hdrop : ("industries/".data ++ (slug ++ ".csv".data)).drop 11 = slug ++ ".csv".data := by
    rw [← hlen11, List.drop_left]
  have htake1 : (slug ++ ".csv".data).take (11 + slug.length - 11) = slug := by
    simp [List.take_left]
  rw [hdrop, htake1, hall]
  simp only [Bool.false_eq_true, if_false, reduceIte]
  have htake2 : ("industries/".data ++ (slug ++ ".csv".data)).take (11 + slug.length) =
      "industries/".data ++ slug := by
    rw [← List.append_assoc, ← hlendir, List.take_left]
  have hdrop2 : ("industries/".data ++ (slug ++ ".csv".data)).drop (11 + slug.length) =
      ".csv".data := by
    rw [← List.append_assoc, ← hlendir, List.drop_left]
  rw [htake2, hdrop2]

theorem pyJoin_industries (x : List Char) (hx : x.head? ≠ some '/') :
    pyJoin "industries".data x = "industries/".data ++ x := by
  unfold pyJoin
  rw [if_neg hx, if_neg (by decide)]
  rw [show "industries/".data = "industries".data ++ ['/'] from by decide, List.append_assoc]
  rfl

theorem slugify_char_shape (u : UC) {cs : List Char} {c : Char} (h : c ∈ slugify u cs) :
    c ∈ "unknown".data ∨ c = '_' ∨ (u.isWord c = true ∧ isPySpace c = false) ∨ c = '-' := by
  by_cases h3 : collapseWith '_' false ((normalize_text u.nfkc cs).filter (slugKeep u)) = []
  · left
    simpa only [slugify, h3, if_pos] using h
  · have hout : slugify u cs =
        (collapseWith '_' false ((normalize_text u.nfkc cs).filter (slugKeep u))).take 120 := by
      simp only [slugify, h3, if_neg, if_false, reduceIte]
    rw [hout] at h
    rcases mem_collapseWith _ _ _ (List.take_subset _ _ h) with h' | ⟨hm, hs⟩
    · exact Or.inr (Or.inl h')
    · have := (List.mem_filter.mp hm).2
      simp only [slugKeep, Bool.or_eq_true] at this
      rcases this with (hword | hspace) | hhyph
      · exact Or.inr (Or.inr (Or.inl ⟨hword, hs⟩))
      · rw [hspace] at hs; cases hs
      · exact Or.inr (Or.inr (Or.inr (by simpa using hhyph)))

theorem slugify_facts (u : UC) (hdotw : u.isWord '.' = false) (hslw : u.isWord '/' = false)
    (name : List Char) :
    slugify u name ≠ [] ∧ '.' ∉ slugify u name ∧ '/' ∉ slugify u name := by
  refine ⟨?_, fun hmem => ?_, fun hmem => ?_⟩
  · by_cases h3 : collapseWith '_' false ((normalize_text u.nfkc name).filter (slugKeep u)) = []
    · simp only [slugify, h3, if_pos]
      decide
    · simp only [slugify, h3, if_neg, if_false, reduceIte]
      intro hnil
      have hlen : (collapseWith '_' false
          ((normalize_text u.nfkc name).filter (slugKeep u))).length ≠ 0 :=
        fun h => h3 (List.eq_nil_of_length_eq_zero h)
      have := congrArg List.length hnil
      rw [List.length_take] at this
      simp only [List.length_nil] at this
      omega
  · rcases slugify_char_shape u hmem with h | h | ⟨h, _⟩ | h
    · revert h; decide
    · cases h
    · rw [hdotw] at h; cases h
    · cases h
  · rcases slugify_char_shape u hmem with h | h | ⟨h, _⟩ | h
    · revert h; decide
    · cases h
    · rw [hslw] at h; cases h
    · cases h

theorem ensure_unique_not_mem (fs : List (List Char)) (path : List Char) :
    ensure_unique_path fs path ∉ fs := by
  unfold ensure_unique_path
  by_cases h : path ∈ fs
  · rw [if_pos h]
    exact Nat.find_spec (exists_unused fs (splitext path).1 (splitext path).2)
  · rw [if_neg h]
    exact h

theorem ensure_unique_free_eq {fs : List (List Char)} {path : List Char} (h : path ∉ fs) :
    ensure_unique_path fs path = path := by
  unfold ensure_unique_path
  rw [if_neg h]

theorem ensure_unique_used_eq {fs : List (List Char)} {path : List Char} (h : path ∈ fs) :
    ensure_unique_path fs path =
      uniqueCand (splitext path).1 (splitext path).2
        (2 + Nat.find (exists_unused fs (splitext path).1 (splitext path).2)) := by
  unfold ensure_unique_path
  rw [if_pos h]

theorem ensure_unique_minimal {fs : List (List Char)} {path : List Char} (_h : path ∈ fs) :
    ∀ j, 2 ≤ j →
      j < 2 + Nat.find (exists_unused fs (splitext path).1 (splitext path).2) →
      uniqueCand (splitext path).1 (splitext path).2 j ∈ fs := by
  intro j h2 hlt
  have hmin := Nat.find_min (exists_unused fs (splitext path).1 (splitext path).2)
    (show j - 2 < Nat.find (exists_unused fs (splitext path).1 (splitext path).2) by omega)
  have heq : 2 + (j - 2) = j := by omega
  rw [heq] at hmin
  exact not_not.mp hmin

theorem natRepr_two : natRepr 2 = ['2'] := by
  rw [natRepr]
  norm_num

theorem uniqueCand_two_ne {X : List Char} : uniqueCand X ".csv".data 2 ≠ X ++ ".csv".data := by
  intro he
  have := congrArg List.length he
  simp only [uniqueCand, natRepr_two, List.length_append, List.length_cons] at this
  omega

/-- **C9**: `write_industry_csv` never overwrites an existing file.  It
writes to `slugify(name) + ".csv"` in the `industries` directory when that
path is unused; otherwise it picks `base_k.ext` for the least free counter
`k ≥ 2`.  Called twice with the same industry name, the two calls produce
two distinct files, the second suffixed `_2`, and each call returns the path
it actually wrote.  (Hypotheses: the UCD facts that `.` and `/` are not word
characters.) -/
theorem write_industry_csv_no_clobber (u : UC) (fs : List (List Char))
    (name : List Char) (cs cs₂ : List Company)
    (hdotw : u.isWord '.' = false) (hslw : u.isWord '/' = false) :
    (write_industry_csv u fs name "industries".data cs).1 ∉ fs ∧
    (write_industry_csv u fs name "industries".data cs).2 =
      (write_industry_csv u fs name "industries".data cs).1 :: fs ∧
    ("industries/".data ++ slugify u name ++ ".csv".data ∉ fs →
      (write_industry_csv u fs name "industries".data cs).1 =
        "industries/".data ++ slugify u name ++ ".csv".data) ∧
    ("industries/".data ++ slugify u name ++ ".csv".data ∈ fs →
      ∃ k, 2 ≤ k ∧
        (write_industry_csv u fs name "industries".data cs).1 =
          uniqueCand ("industries/".data ++ slugify u name) ".csv".data k ∧
        uniqueCand ("industries/".data ++ slugify u name) ".csv".data k ∉ fs ∧
        ∀ j, 2 ≤ j → j < k →
          uniqueCand ("industries/".data ++ slugify u name) ".csv".data j ∈ fs) ∧
    ((write_industry_csv u [] name "industries".data cs).1 =
        "industries/".data ++ slugify u name ++ ".csv".data ∧
      (write_industry_csv u (write_industry_csv u [] name "industries".data cs).2
          name "industries".data cs₂).1 =
        uniqueCand ("industries/".data ++ slugify u name) ".csv".data 2 ∧
      (write_industry_csv u [] name "industries".data cs).1 ≠
        (write_industry_csv u (write_industry_csv u [] name "industries".data cs).2
          name "industries".data cs₂).1 ∧
      (write_industry_csv u [] name "industries".data cs).1 ∈
        (write_industry_csv u (write_industry_csv u [] name "industries".data cs).2
          name "industries".data cs₂).2 ∧
      (write_industry_csv u (write_industry_csv u [] name "industries".data cs).2
          name "industries".data cs₂).1 ∈
        (write_industry_csv u (write_industry_csv u [] name "industries".data cs).2
          name "industries".data cs₂).2) := by
  obtain ⟨hne, hdot, hsl⟩ := slugify_facts u hdotw hslw name
  obtain ⟨s0, tl, hs⟩ : ∃ s0 tl, slugify u name = s0 :: tl := by
    rcases hsg : slugify u name with _ | ⟨a, b⟩
    · exact absurd hsg hne
    · exact ⟨a, b, rfl⟩
  have hhead : (slugify u name ++ ".csv".data).head? ≠ some '/' := by
    rw [hs]
    intro h
    simp only [List.cons_append, List.head?_cons, Option.some.injEq] at h
    exact hsl (hs ▸ h ▸ List.mem_cons_self _ _)
  have hjoin : pyJoin "industries".data (slugify u name ++ ".csv".data) =
      "industries/".data ++ slugify u name ++ ".csv".data := by
    rw [pyJoin_industries _ hhead, List.append_assoc]
  have hsplitBase : splitext ("industries/".data ++ slugify u name ++ ".csv".data) =
      ("industries/".data ++ slugify u name, ".csv".data) := by
    rw [List.append_assoc]
    exact splitext_dir_slug (slugify u name) hne hdot hsl
  have hwrite : ∀ fs' : List (List Char), ∀ cs' : List Company,
      write_industry_csv u fs' name "industries".data cs' =
        (ensure_unique_path fs' ("industries/".data ++ slugify u name ++ ".csv".data),
          ensure_unique_path fs' ("industries/".data ++ slugify u name ++ ".csv".data) :: fs') := by
    intro fs' cs'
    simp only [write_industry_csv, hjoin]
  refine ⟨?_, ?_, ?_, ?_, ?_, ?_, ?_, ?_, ?_⟩
  · rw [hwrite fs cs]
    exact ensure_unique_not_mem fs _
  · rw [hwrite fs cs]
  · intro hfree
    rw [hwrite fs cs]
    exact ensure_unique_free_eq hfree
  · intro hused
    refine ⟨2 + Nat.find (exists_unused fs ("industries/".data ++ slugify u name)
      ".csv".data), by omega, ?_, ?_, ?_⟩
    · rw [hwrite fs cs]
      have := ensure_unique_used_eq hused
      rw [hsplitBase] at this
      exact this
    · exact Nat.find_spec (exists_unused fs _ _)
    · have hmin := ensure_unique_minimal hused
      rw [hsplitBase] at hmin
      exact hmin
  all_goals
    have h1 : write_industry_csv u [] name "industries".data cs =
        ("industries/".data ++ slugify u name ++ ".csv".data,
          ["industries/".data ++ slugify u name ++ ".csv".data]) := by
      rw [hwrite [] cs, ensure_unique_free_eq (List.not_mem_nil _)]
  all_goals
    have hmemb : "industries/".data ++ slugify u name ++ ".csv".data ∈
        ["industries/".data ++ slugify u name ++ ".csv".data] := List.mem_cons_self _ _
    have hfind0 : Nat.find (exists_unused
        ["industries/".data ++ slugify u name ++ ".csv".data]
        ("industries/".data ++ slugify u name) ".csv".data) = 0 := by
      rw [Nat.find_eq_zero]
      intro hmem2
      have h := List.mem_singleton.mp hmem2
      have h' : uniqueCand ("industries/".data ++ slugify u name) ".csv".data 2 =
          ("industries/".data ++ slugify u name) ++ ".csv".data := by
        rw [List.append_assoc]
        exact h
      exact uniqueCand_two_ne h'
    have h2 : write_industry_csv u
        ["industries/".data ++ slugify u name ++ ".csv".data] name "industries".data cs₂ =
        (uniqueCand ("industries/".data ++ slugify u name) ".csv".data 2,
          [uniqueCand ("industries/".data ++ slugify u name) ".csv".data 2,
            "industries/".data ++ slugify u name ++ ".csv".data]) := by
      rw [hwrite _ cs₂]
      have hstep := ensure_unique_used_eq hmemb
      rw [hsplitBase] at hstep
      dsimp only at hstep
      rw [hfind0] at hstep
      simp only [Nat.add_zero] at hstep
      rw [hstep]
  · rw [h1]
  · rw [h1]
    dsimp only
    rw [h2]
  · rw [h1]
    dsimp only
    rw [h2]
    dsimp only
    intro he
    have h' : uniqueCand ("industries/".data ++ slugify u name) ".csv".data 2 =
        ("industries/".data ++ slugify u name) ++ ".csv".data := by
      rw [List.append_assoc]
      exact he.symm
    exact uniqueCand_two_ne h'
  · rw [h1]
    dsimp only
    rw [h2]
    dsimp only
    exact List.mem_cons_of_mem _ (List.mem_cons_self _ _)
  · rw [h1]
    dsimp only
    rw [h2]
    dsimp only
    exact List.mem_cons_self _ _

/-- Witness for C9: two writes of the same industry name starting from an
empty filesystem produce the base name and then the `_2`-suffixed name. -/
theorem write_industry_csv_no_clobber_witness :
    (write_industry_csv ucAscii [] "Chemicals".data "industries".data []).1 =
      "industries/".data ++ slugify ucAscii "Chemicals".data ++ ".csv".data ∧
    (write_industry_csv ucAscii
        (write_industry_csv ucAscii [] "Chemicals".data "industries".data []).2
        "Chemicals".data "industries".data []).1 =
      uniqueCand ("industries/".data ++ slugify ucAscii "Chemicals".data) ".csv".data 2 := by
  refine ⟨?_, ?_⟩
  · exact (write_industry_csv_no_clobber ucAscii [] "Chemicals".data [] []
      (by decide) (by decide)).2.2.2.2.1
  · exact (write_industry_csv_no_clobber ucAscii [] "Chemicals".data [] []
      (by decide) (by decide)).2.2.2.2.2.1

/-! ## C2: an uncaught per-industry fetch failure aborts the whole run -/

theorem pyJoin_ne_nil (x : List Char) : pyJoin "industries".data x ≠ [] := by
  unfold pyJoin
  by_cases hx : x.head? = some '/'
  · rw [if_pos hx]
    intro h
    rw [h] at hx
    cases hx
  · rw [if_neg hx, if_neg (by decide)]
    simp

theorem pyJoin_head (x : List Char) :
    (pyJoin "industries".data x).head? = some '/' ∨
    (pyJoin "industries".data x).head? = some 'i' := by
  unfold pyJoin
  by_cases hx : x.head? = some '/'
  · rw [if_pos hx]
    exact Or.inl hx
  · rw [if_neg hx, if_neg (by decide)]
    right
    rfl

theorem splitext_fst_cases (p : List Char) :
    (splitext p).1 = p ∨ ((splitext p).1.head? = p.head? ∧ (splitext p).1 ≠ []) := by
  unfold splitext
  by_cases hlt : rfind '/' p < rfind '.' p
  · rw [if_pos hlt]
    by_cases hall : (((p.drop ((rfind '/' p + 1).toNat)).take
        ((rfind '.' p).toNat - (rfind '/' p + 1).toNat)).all fun c => c = '.') = true
    · rw [if_pos hall]
      exact Or.inl rfl
    · rw [if_neg hall]
      right
      obtain ⟨x, hx, _⟩ : ∃ x ∈ (p.drop ((rfind '/' p + 1).toNat)).take
          ((rfind '.' p).toNat - (rfind '/' p + 1).toNat), ¬(x = '.') := by
        rw [List.all_eq_true] at hall
        push_neg at hall
        simpa using hall
      have hseg : (p.drop ((rfind '/' p + 1).toNat)).take
          ((rfind '.' p).toNat - (rfind '/' p + 1).toNat) ≠ [] :=
        fun hnil => by rw [hnil] at hx; cases hx
      have hd1 : 1 ≤ (rfind '.' p).toNat := by
        by_contra hcon
        apply hseg
        have hz : (rfind '.' p).toNat - (rfind '/' p + 1).toNat = 0 := by omega
        rw [hz, List.take_zero]
      obtain ⟨c0, rest, hp⟩ : ∃ c0 rest, p = c0 :: rest := by
        rcases p with _ | ⟨a, b⟩
        · exfalso
          apply hseg
          simp
        · exact ⟨a, b, rfl⟩
      subst hp
      obtain ⟨k, hk⟩ : ∃ k, (rfind '.' (c0 :: rest)).toNat = k + 1 :=
        ⟨(rfind '.' (c0 :: rest)).toNat - 1, by omega⟩
      rw [hk]
      exact ⟨rfl, by simp⟩
  · rw [if_neg hlt]
    exact Or.inl rfl

theorem ensure_unique_head (fs : List (List Char)) (path : List Char) (hp : path ≠ []) :
    (ensure_unique_path fs path).head? = path.head? := by
  unfold ensure_unique_path
  by_cases h : path ∈ fs
  · rw [if_pos h]
    rw [uniqueCand]
    rcases splitext_fst_cases path with hcase | ⟨hhd, hne⟩
    · rw [List.head?_append_of_ne_nil _ (by rw [hcase]; exact hp), hcase]
    · rw [List.head?_append_of_ne_nil _ hne, hhd]
  · rw [if_neg h]

theorem mainLoop_ok_facts {ε : Type} (u : UC) (attempt : List Char → Except ε JVal) :
    ∀ (l : List Industry) (fs : List (List Char)) (rows : List CRow),
      (∀ i ∈ l, ∃ cs, load_companies_for_industry u attempt i.code = .ok cs) →
      ∃ fsN rowsN, mainLoop u attempt l fs rows = .ok (fsN, rowsN) ∧
        (∀ p ∈ fs, p ∈ fsN) ∧
        (∀ p ∈ fsN, p ∈ fs ∨ p.head? = some '/' ∨ p.head? = some 'i') := by
  intro l
  induction l with
  | nil =>
    intro fs rows _
    exact ⟨fs, rows, rfl, fun p hp => hp, fun p hp => Or.inl hp⟩
  | cons i rest ih =>
    intro fs rows hok
    obtain ⟨cs, hcs⟩ := hok i (List.mem_cons_self _ _)
    have hok' : ∀ j ∈ rest, ∃ cs', load_companies_for_industry u attempt j.code = .ok cs' :=
      fun j hj => hok j (List.mem_cons_of_mem _ hj)
    rcases cs with _ | ⟨c, cs'⟩
    · obtain ⟨fsN, rowsN, heq, hmono, hnew⟩ := ih fs rows hok'
      refine ⟨fsN, rowsN, ?_, hmono, hnew⟩
      simp only [mainLoop, hcs]
      exact heq
    · have hpath := pyJoin_head (slugify u i.name ++ ".csv".data)
      have hpne := pyJoin_ne_nil (slugify u i.name ++ ".csv".data)
      set p0 := ensure_unique_path fs
        (pyJoin "industries".data (slugify u i.name ++ ".csv".data)) with hp0
      have hhead : p0.head? = some '/' ∨ p0.head? = some 'i' := by
        rw [hp0, ensure_unique_head _ _ hpne]
        exact hpath
      obtain ⟨fsN, rowsN, heq, hmono, hnew⟩ :=
        ih (p0 :: fs) (rows ++ (c :: cs').map fun x => ⟨i.name, x.id, x.symbol, x.name⟩) hok'
      refine ⟨fsN, rowsN, ?_, ?_, ?_⟩
      · simp only [mainLoop, hcs, write_industry_csv]
        exact heq
      · exact fun q hq => hmono q (List.mem_cons_of_mem _ hq)
      · intro q hq
        rcases hnew q hq with hmem | hh
        · rcases List.mem_cons.mp hmem with h' | h'
          · subst h'
            exact Or.inr hhead
          · exact Or.inl h'
        · exact Or.inr hh

theorem mainLoop_split_error {ε : Type} (u : UC) (attempt : List Char → Except ε JVal)
    (ind : Industry) (l₂ : List Industry) (e : PyExc ε)
    (hfail : load_companies_for_industry u attempt ind.code = .error e) :
    ∀ (l₁ : List Industry) (fs : List (List Char)) (rows : List CRow)
      (fsN : List (List Char)) (rowsN : List CRow),
      (∀ i ∈ l₁, ∃ cs, load_companies_for_industry u attempt i.code = .ok cs) →
      mainLoop u attempt l₁ fs rows = .ok (fsN, rowsN) →
      mainLoop u attempt (l₁ ++ ind :: l₂) fs rows = .error (e, fsN) := by
  intro l₁
  induction l₁ with
  | nil =>
    intro fs rows fsN rowsN _ heq
    simp only [mainLoop, Except.ok.injEq, Prod.mk.injEq] at heq
    obtain ⟨h1, _⟩ := heq
    subst h1
    simp only [List.nil_append, mainLoop, hfail]
  | cons i rest ih =>
    intro fs rows fsN rowsN hok heq
    obtain ⟨cs, hcs⟩ := hok i (List.mem_cons_self _ _)
    have hok' : ∀ j ∈ rest, ∃ cs', load_companies_for_industry u attempt j.code = .ok cs' :=
      fun j hj => hok j (List.mem_cons_of_mem _ hj)
    rcases cs with _ | ⟨c, cs'⟩
    · simp only [mainLoop, hcs] at heq
      simp only [List.cons_append, mainLoop, hcs]
      exact ih fs rows fsN rowsN hok' heq
    · simp only [mainLoop, hcs, write_industry_csv] at heq
      simp only [List.cons_append, mainLoop, hcs, write_industry_csv]
      exact ih _ _ fsN rowsN hok' heq

/-- **C2**: neither `FetchError` nor `FilesystemError` is caught anywhere in
the pipeline: when fetching industry N's company list fails after industries
`l₁` succeeded, `main` terminates at that point with exactly the filesystem
state reached after `l₁` (so industries N+1.. contribute nothing), the
combined CSV has not been written, and the per-industry files written before
the failure (together with all pre-existing files) are still on disk. -/
theorem fetch_failure_aborts_run {ε : Type} (u : UC)
    (attempt : List Char → Except ε JVal) (fs₀ : List (List Char))
    (l₁ l₂ : List Industry) (ind : Industry) (e : PyExc ε)
    (hind : load_industries u attempt = .ok (l₁ ++ ind :: l₂))
    (hok : ∀ i ∈ l₁, ∃ cs, load_companies_for_industry u attempt i.code = .ok cs)
    (hfail : load_companies_for_industry u attempt ind.code = .error e)
    (hcomb : COMBINED_PATH ∉ fs₀) :
    ∃ fsN rowsN,
      mainLoop u attempt l₁ fs₀ [] = .ok (fsN, rowsN) ∧
      mainModel u attempt fs₀ = .error (e, fsN) ∧
      (∀ p ∈ fs₀, p ∈ fsN) ∧
      COMBINED_PATH ∉ fsN := by
  obtain ⟨fsN, rowsN, heq, hmono, hnew⟩ := mainLoop_ok_facts u attempt l₁ fs₀ [] hok
  refine ⟨fsN, rowsN, heq, ?_, hmono, ?_⟩
  · have herr := mainLoop_split_error u attempt ind l₂ e hfail l₁ fs₀ [] fsN rowsN hok heq
    simp only [mainModel, hind, herr]
    rw [if_neg (by simp)]
  · intro hc
    rcases hnew _ hc with h | h | h
    · exact hcomb h
    · rw [show COMBINED_PATH.head? = some 'a' from rfl] at h
      cases h
    · rw [show COMBINED_PATH.head? = some 'a' from rfl] at h
      cases h

/-- Witness for C2 at a concrete oracle: the static data yields one industry
whose related-company fetch fails on both mirrors, so the run dies with the
original filesystem intact and no combined CSV. -/
theorem fetch_failure_aborts_run_witness :
    ∃ fsN rowsN,
      mainLoop ucAscii
          (fun w => if w = STATIC_DATA_URLS.head! then
            Except.ok (JVal.obj [("staticData", JVal.arr
              [JVal.obj [("type", JVal.str "IndustrialGroup".data),
                ("code", JVal.str "01".data)]])])
           else Except.error ())
          [] [] [] = .ok (fsN, rowsN) ∧
      mainModel ucAscii
          (fun w => if w = STATIC_DATA_URLS.head! then
            Except.ok (JVal.obj [("staticData", JVal.arr
              [JVal.obj [("type", JVal.str "IndustrialGroup".data),
                ("code", JVal.str "01".data)]])])
           else Except.error ())
          [] = .error (PyExc.fetch (some ()), fsN) ∧
      (∀ p ∈ ([] : List (List Char)), p ∈ fsN) ∧
      COMBINED_PATH ∉ fsN := by
  apply fetch_failure_aborts_run ucAscii _ [] []
    [] ⟨"01".data, normalize_text id "IndustrialGroup_01".data⟩ (PyExc.fetch (some ()))
  · rfl
  · intro i hi
    cases hi
  · rfl
  · exact List.not_mem_nil _

end Tsetmc
